import Mathlib

/-!
Shallow embedding of the ledger and reconciliation core of the
`trading_engine` repository (Rust), for checking the natural-language
specification against the code.

Conventions of the embedding:
* Rust `f64` amounts, prices and quantities are modelled as `ℚ`
  (exact arithmetic; NaN/rounding corner cases of IEEE floats are outside
  the model).
* `chrono::DateTime<Utc>` timestamps are modelled as `Int` day numbers:
  the verified code paths compare timestamps only through `date_naive()`,
  and the dividend sweep synthesizes timestamps at midnight of a payment
  date, so day granularity is exact for every comparison that occurs.
* `HashMap<String, Holding>` is modelled as an association list with
  unique keys, with lookup / in-place update / erase mirroring
  `get` / `get_mut` / `insert` / `remove`.
* `&mut self` methods become state-passing functions returning
  `result × newState`; a method that returns `Err` before any mutation
  returns the unchanged state, exactly as in the source.
-/

namespace TradingEngine

end TradingEngine

deriving instance DecidableEq for Except

namespace TradingEngine

/-- `BankError` from `src/bank/mod.rs` (`pub mod error`). -/
inductive BankError where
  | AccountNotFound
  | AccountAlreadyExists
  | InsufficientFunds
  | CloseAccountWithBalance
  | InsufficientQuantity
deriving DecidableEq, Repr

/-- Modelled from the spec: the `Asset` type (`src/bank/stock.rs` in the
current snapshot is superseded; only uses of `Asset::new(symbol)` and its
`PartialEq` appear under `src/`). Per §3 of the spec, an Asset "identifies a
tradable instrument by symbol"; equality is by symbol. -/
structure Asset where
  symbol : String
deriving DecidableEq, Repr

def Asset.new (symbol : String) : Asset := ⟨symbol⟩

/-- `TransactionType` from `src/bank/transactions.rs`. Its derived equality in
the model coincides with the hand-written `PartialEq` in the source
(structural comparison of variant, asset and quantity). -/
inductive TransactionType where
  | Deposit
  | Withdraw
  | Sale (asset : Asset) (quantity : ℚ)
  | Purchase (asset : Asset) (quantity : ℚ)
  | Dividend (asset : Asset) (quantity : ℚ)
deriving DecidableEq, Repr

/-- `Transaction` from `src/bank/transactions.rs`; `date` is the naive day of
the timestamp. -/
structure Transaction where
  transaction_type : TransactionType
  amount : ℚ
  date : Int
  description : Option String
deriving DecidableEq, Repr

def Transaction.new (transaction_type : TransactionType) (amount : ℚ)
    (date : Int) (description : Option String) : Transaction :=
  ⟨transaction_type, amount, date, description⟩

/-- The signed cash effect of a transaction as stated in the spec (§3, §8):
`+amount` for Deposit, Sale and Dividend; `-amount` for Withdraw and
Purchase. -/
def cashEffect (t : Transaction) : ℚ :=
  match t.transaction_type with
  | .Deposit => t.amount
  | .Sale _ _ => t.amount
  | .Dividend _ _ => t.amount
  | .Withdraw => -t.amount
  | .Purchase _ _ => -t.amount

/-- Sum of signed cash effects over a transaction log. -/
def cashSum (ts : List Transaction) : ℚ :=
  (ts.map cashEffect).sum

/-- Modelled from the spec: the current `Holding` struct (the snapshot in
`src/bank/stock.rs` is superseded). Per §3 it has `quantity` and
`average_cost_per_unit`; the field `asset` and the constructor argument
order `Holding::new(average_cost_per_unit, quantity, symbol)` are fixed by
the use sites in `src/bank/accounts.rs` and `src/brokerage/mod.rs`. -/
structure Holding where
  average_cost_per_unit : ℚ
  quantity : ℚ
  asset : Asset
deriving DecidableEq, Repr

def Holding.new (average_cost_per_unit quantity : ℚ) (symbol : String) : Holding :=
  ⟨average_cost_per_unit, quantity, Asset.new symbol⟩

/-- Association-list model of `HashMap<String, Holding>`: lookup
(`HashMap::get`). -/
def lookupA (m : List (String × Holding)) (k : String) : Option Holding :=
  match m with
  | [] => none
  | (k', v) :: rest => if k' = k then some v else lookupA rest k

/-- Association-list model of mutating the holding stored at a key in place
(`HashMap::get_mut` followed by field assignment): the entry keyed `k` gets
its holding replaced by `f` applied to it, keys are untouched. -/
def updateA (m : List (String × Holding)) (k : String) (f : Holding → Holding) :
    List (String × Holding) :=
  match m with
  | [] => []
  | (k', v) :: rest => (k', if k' = k then f v else v) :: updateA rest k f

/-- Association-list model of `HashMap::remove`. -/
def eraseA (m : List (String × Holding)) (k : String) : List (String × Holding) :=
  match m with
  | [] => []
  | (k', v) :: rest => if k' = k then eraseA rest k else (k', v) :: eraseA rest k

/-- `CheckingAccount` from `src/bank/accounts.rs`; `created_at` a day
number. -/
structure CheckingAccount where
  id : Nat
  balance : ℚ
  nickname : Option String
  created_at : Int
  transactions : List Transaction
deriving DecidableEq, Repr

namespace CheckingAccount

/-- `CheckingAccount::new` (`created_at = now`, empty log). -/
def new (id : Nat) (balance : ℚ) (nickname : Option String) (now : Int) :
    CheckingAccount :=
  ⟨id, balance, nickname, now, []⟩

/-- `CheckingAccount::deposit`: unconditional `balance += amount`, append a
Deposit transaction, return the new balance. -/
def deposit (a : CheckingAccount) (amount : ℚ) (now : Int) :
    ℚ × CheckingAccount :=
  let a' := { a with
    balance := a.balance + amount,
    transactions := a.transactions ++
      [Transaction.new .Deposit amount now none] }
  (a'.balance, a')

/-- `CheckingAccount::withdraw`: fails with `InsufficientFunds` when
`balance < amount`, otherwise debit and append a Withdraw transaction. -/
def withdraw (a : CheckingAccount) (amount : ℚ) (now : Int) :
    Except BankError ℚ × CheckingAccount :=
  if a.balance < amount then (.error .InsufficientFunds, a)
  else
    let a' := { a with
      balance := a.balance - amount,
      transactions := a.transactions ++
        [Transaction.new .Withdraw amount now none] }
    (.ok a'.balance, a')

end CheckingAccount

/-- `InvestmentAccount` from `src/bank/accounts.rs`. -/
structure InvestmentAccount where
  id : Nat
  balance : ℚ
  nickname : Option String
  created_at : Int
  assets : List (String × Holding)
  transactions : List Transaction
deriving DecidableEq, Repr

namespace InvestmentAccount

/-- `InvestmentAccount::new` (`created_at = now`, no assets, empty log). -/
def new (id : Nat) (balance : ℚ) (nickname : Option String) (now : Int) :
    InvestmentAccount :=
  ⟨id, balance, nickname, now, [], []⟩

/-- `InvestmentAccount::deposit` (same body as the checking variant). -/
def deposit (a : InvestmentAccount) (amount : ℚ) (now : Int) :
    ℚ × InvestmentAccount :=
  let a' := { a with
    balance := a.balance + amount,
    transactions := a.transactions ++
      [Transaction.new .Deposit amount now none] }
  (a'.balance, a')

/-- `InvestmentAccount::withdraw`: check, append the Withdraw transaction,
then debit (the source pushes the transaction before decrementing). -/
def withdraw (a : InvestmentAccount) (amount : ℚ) (now : Int) :
    Except BankError ℚ × InvestmentAccount :=
  if a.balance < amount then (.error .InsufficientFunds, a)
  else
    let a' := { a with
      transactions := a.transactions ++
        [Transaction.new .Withdraw amount now none] }
    let a'' := { a' with balance := a'.balance - amount }
    (.ok a''.balance, a'')

/-- `InvestmentAccount::purchase_investment`. -/
def purchase_investment (a : InvestmentAccount) (symbol : String)
    (price quantity : ℚ) (now : Int) :
    Except BankError Unit × InvestmentAccount :=
  let total_cost := price * quantity
  if a.balance < total_cost then (.error .InsufficientFunds, a)
  else
    let a1 := { a with balance := a.balance - total_cost }
    let a2 :=
      match lookupA a1.assets symbol with
      | some _ =>
        { a1 with assets := updateA a1.assets symbol (fun h =>
            { h with
              average_cost_per_unit :=
                (h.average_cost_per_unit * h.quantity + total_cost) /
                  (h.quantity + quantity),
              quantity := h.quantity + quantity }) }
      | none =>
        { a1 with assets :=
            a1.assets ++ [(symbol, Holding.new (total_cost / quantity) quantity symbol)] }
    let a3 := { a2 with transactions := a2.transactions ++
      [Transaction.new (.Purchase (Asset.new symbol) quantity) total_cost now none] }
    (.ok (), a3)

/-- `InvestmentAccount::sell_investment`. -/
def sell_investment (a : InvestmentAccount) (symbol : String)
    (price quantity : ℚ) (now : Int) :
    Except BankError Unit × InvestmentAccount :=
  match lookupA a.assets symbol with
  | none => (.error .InsufficientQuantity, a)
  | some holding =>
    if holding.quantity < quantity then (.error .InsufficientQuantity, a)
    else
      let total_cost := price * quantity
      let a1 := { a with balance := a.balance + total_cost }
      let a2 :=
        if holding.quantity - quantity = 0 then
          { a1 with assets := eraseA a1.assets symbol }
        else
          { a1 with assets := updateA a1.assets symbol (fun h =>
              { h with quantity := h.quantity - quantity }) }
      let a3 := { a2 with transactions := a2.transactions ++
        [Transaction.new (.Sale (Asset.new symbol) quantity) total_cost now none] }
      (.ok (), a3)

end InvestmentAccount

/-- An operation on an investment account, with the timestamp (day) the
operation runs at. -/
inductive InvOp where
  | depositOp (amount : ℚ) (now : Int)
  | withdrawOp (amount : ℚ) (now : Int)
  | purchaseOp (symbol : String) (price quantity : ℚ) (now : Int)
  | sellOp (symbol : String) (price quantity : ℚ) (now : Int)
deriving DecidableEq, Repr

/-- Running one operation; a failed operation leaves the account unchanged
(as the source returns `Err` before any mutation). -/
def applyInvOp (a : InvestmentAccount) (op : InvOp) : InvestmentAccount :=
  match op with
  | .depositOp amt d => (a.deposit amt d).2
  | .withdrawOp amt d => (a.withdraw amt d).2
  | .purchaseOp s p q d => (a.purchase_investment s p q d).2
  | .sellOp s p q d => (a.sell_investment s p q d).2

/-- An operation on a checking account. -/
inductive ChkOp where
  | depositOp (amount : ℚ) (now : Int)
  | withdrawOp (amount : ℚ) (now : Int)
deriving DecidableEq, Repr

def applyChkOp (a : CheckingAccount) (op : ChkOp) : CheckingAccount :=
  match op with
  | .depositOp amt d => (a.deposit amt d).2
  | .withdrawOp amt d => (a.withdraw amt d).2

/-! ### Price cache (`src/brokerage/dataloader.rs`) -/

/-- State of the on-disk cache file `data.json` for one key, as the
dataloader observes it: whether it exists, whether its last-modified time is
within the invalidate rate (TTL), whether reading it succeeds, and its
contents when readable. -/
structure CacheFile where
  present : Bool
  fresh : Bool
  readable : Bool
  content : String
deriving DecidableEq, Repr

/-- Outcome of `Dataloader::get_time_series_intraday` as observed by the
process: a payload, a typed I/O error (`Err`), or a panic
(`Result::unwrap` on a value that is not `Ok`/parseable). -/
inductive CacheOutcome (α : Type) where
  | ok (payload : α)
  | ioError
  | panicked
deriving DecidableEq, Repr

/-- `Dataloader::check_cache_file_valid`: a cache file is valid iff it
exists and its last write time is within the invalidate rate. -/
def check_cache_file_valid (f : CacheFile) : Bool :=
  f.present && f.fresh

/-- `Dataloader::get_time_series_intraday`, abstracted over the payload
parse (`serde_json::from_slice`) and the provider call. On a valid cache
file the source reads it (`?` propagates a read error) and then calls
`.unwrap()` on the serde parse — a parse failure panics. Otherwise the
provider is consulted and its payload returned (the cache write is
fire-and-forget). -/
def get_time_series_intraday (f : CacheFile) (parse : String → Option α)
    (provider : Except String α) : CacheOutcome α :=
  if check_cache_file_valid f then
    if f.readable then
      match parse f.content with
      | some data => .ok data
      | none => .panicked
    else .ioError
  else
    match provider with
    | .ok data => .ok data
    | .error _ => .ioError

/-! ### Dividend watermark (`src/brokerage/mod.rs`, `check_earliest_dividend`) -/

/-- The watermark file state: `none` = file absent; `some none` = file
present but not parseable as an RFC3339 date; `some (some d)` = file present
holding date `d`. -/
abbrev WatermarkFile := Option (Option Int)

/-- `Broker::check_earliest_dividend`: if the watermark file does not
exist, write the target date and return it; otherwise read and parse the
stored date (a parse failure is an `InvalidData` error) and return it,
leaving the file unchanged. Returns (date used as lower bound, file state
afterwards). -/
def check_earliest_dividend (file : WatermarkFile) (date_time : Int) :
    Except String (Int × WatermarkFile) :=
  match file with
  | none => .ok (date_time, some (some date_time))
  | some none => .error "InvalidData"
  | some (some d) => .ok (d, file)

/-- The watermark file after `Broker::check_dividend_payments` runs with
target date `date`: the sweep calls `check_earliest_dividend` once and
performs no further write to the watermark file. -/
def check_dividend_payments_watermark (file : WatermarkFile) (date : Int) :
    Except String WatermarkFile :=
  match check_earliest_dividend file date with
  | .ok (_, file') => .ok file'
  | .error e => .error e

/-! ### Dividend sweep (`src/brokerage/mod.rs`, `check_dividend_payments`) -/

/-- `DividendEntry` of the provider's dividend history: an optional payment
date (naive day) and a per-share amount. -/
structure DividendEntry where
  payment_date : Option Int
  amount : ℚ
deriving DecidableEq, Repr

/-- `Broker::parse_valid_dividend_data`: keep entries whose payment date is
present and lies in `(last_loaded, date]` (naive-date comparison). -/
def parse_valid_dividend_data (data : List DividendEntry)
    (last_loaded date : Int) : List DividendEntry :=
  data.filter (fun dividend =>
    match dividend.payment_date with
    | some d => decide (last_loaded < d) && decide (d ≤ date)
    | none => false)

/-- The Dividend transaction the sweep synthesizes for holding `h` of
`symbol` on payment day `p` with per-share amount `amount`: payout
`quantity * amount`, timestamped at (midnight of) the payment date. -/
def mkDividendTx (h : Holding) (symbol : String) (amount : ℚ) (p : Int) :
    Transaction :=
  Transaction.new (.Dividend h.asset h.quantity) (h.quantity * amount) p
    (some ("Dividend payment for " ++ symbol ++ " on " ++ toString p))

/-- The dedup filter of the sweep: transactions whose type is
`Dividend(asset, quantity)` of the holding and whose (naive) date is the
payment date `p`. -/
def dividendDedup (h : Holding) (p : Int) (tx : Transaction) : Bool :=
  decide (tx.transaction_type = .Dividend h.asset h.quantity) &&
    decide (tx.date = p)

/-- The inner loop of the sweep for one holding: for each valid dividend
entry in order, if no transaction in the log has type
`Dividend(asset, quantity)` and the entry's payment date, schedule a payout
transaction. The log `txs` is the account's log as it stood when the
account's processing began. -/
def todoForHolding (valid : List DividendEntry) (txs : List Transaction)
    (symbol : String) (h : Holding) : List Transaction :=
  match valid with
  | [] => []
  | dividend :: rest =>
    match dividend.payment_date with
    | none => todoForHolding rest txs symbol h
    | some p =>
      if (txs.filter (dividendDedup h p)).length = 0 then
        mkDividendTx h symbol dividend.amount p :: todoForHolding rest txs symbol h
      else
        todoForHolding rest txs symbol h

/-- The `transactions_to_add` list the sweep accumulates for one account,
holding by holding, against the fixed log `txs`. -/
def accountTodoAux (ddata : String → List DividendEntry)
    (last_loaded date : Int) (txs : List Transaction) :
    List (String × Holding) → List Transaction
  | [] => []
  | sh :: rest =>
    todoForHolding (parse_valid_dividend_data (ddata sh.1) last_loaded date)
        txs sh.1 sh.2 ++
      accountTodoAux ddata last_loaded date txs rest

/-- The `transactions_to_add` list the sweep accumulates for one account:
holdings are processed in order against the account's (fixed) transaction
log. `ddata` is the provider's dividend history per symbol (the in-sweep
memoization returns the same data, so it is semantically transparent). -/
def accountTodo (ddata : String → List DividendEntry)
    (last_loaded date : Int) (a : InvestmentAccount) : List Transaction :=
  accountTodoAux ddata last_loaded date a.transactions a.assets

/-- Modelled from the spec: `InvestmentAccount::add_transaction` is not
present under `src/` (only its caller in the dividend sweep is). Per §4.6
the sweep appends the synthesized Dividend transaction to the account's log
and credits the account's balance by the payout amount (the transaction's
signed cash effect). -/
def add_transaction (a : InvestmentAccount) (t : Transaction) :
    InvestmentAccount :=
  { a with
    balance := a.balance + cashEffect t,
    transactions := a.transactions ++ [t] }

/-- `Broker::check_dividend_payments` restricted to one investment account:
compute the todo list, then append each scheduled transaction. -/
def check_dividend_payments_account (ddata : String → List DividendEntry)
    (last_loaded date : Int) (a : InvestmentAccount) : InvestmentAccount :=
  (accountTodo ddata last_loaded date a).foldl add_transaction a

/-! ### Broker operation traces (`src/brokerage/mod.rs`) -/

/-- The events of a Broker operation that matter for the locking
discipline: external provider calls, acquiring/releasing the Bank lock, and
ledger mutation inside the critical section. -/
inductive BrokerEvent where
  | providerCall (name : String)
  | lockAcquire
  | lockRelease
  | mutate (name : String)
deriving DecidableEq, Repr

/-- Event trace of `Broker::buy`: fetch the price (provider), check market
hours via `get_ticker` (a provider call unless the ticker cache decorator
hits), then lock the Bank, purchase, and release. -/
def buyTrace (tickerCached : Bool) : List BrokerEvent :=
  [.providerCall "get_time_series_intraday"] ++
    (if tickerCached then [] else [.providerCall "search_tickers"]) ++
    [.lockAcquire, .mutate "purchase_investment", .lockRelease]

/-- Event trace of `Broker::sell`: fetch the price, then lock, sell,
release. -/
def sellTrace : List BrokerEvent :=
  [.providerCall "get_time_series_intraday", .lockAcquire,
   .mutate "sell_investment", .lockRelease]

/-- Provider-call events while processing one account's held symbols: a
`get_dividend_data` call for each symbol not already memoized in this
sweep; returns the events and the updated memo. -/
def accountDividendEvents : List String → List String → List BrokerEvent × List String
  | seen, [] => ([], seen)
  | seen, s :: rest =>
    if s ∈ seen then accountDividendEvents seen rest
    else
      let r := accountDividendEvents (seen ++ [s]) rest
      (.providerCall "get_dividend_data" :: r.1, r.2)

/-- Events of the dividend sweep between lock acquisition and release:
per account, one `get_dividend_data` provider call for each held symbol not
already memoized in this sweep, then the account's transaction appends. -/
def dividendEventsAux : List String → List (List String) → List BrokerEvent
  | _, [] => []
  | seen, acctSyms :: rest =>
    let r := accountDividendEvents seen acctSyms
    r.1 ++ [.mutate "add_transaction"] ++ dividendEventsAux r.2 rest

/-- Event trace of `Broker::check_dividend_payments` over the bank's
investment accounts (given as the list of held symbols per account): the
Bank lock is acquired first, and all dividend-history provider calls happen
inside the critical section. -/
def checkDividendTrace (accounts : List (List String)) : List BrokerEvent :=
  .lockAcquire :: (dividendEventsAux [] accounts ++ [.lockRelease])

/-- Scan of a trace checking that no provider call occurs while the Bank
lock is held (`depth` counts currently held acquisitions). -/
def noProviderCallWhileLockedAux : Nat → List BrokerEvent → Bool
  | _, [] => true
  | depth, e :: rest =>
    match e with
    | .lockAcquire => noProviderCallWhileLockedAux (depth + 1) rest
    | .lockRelease => noProviderCallWhileLockedAux (depth - 1) rest
    | .providerCall _ =>
      if depth = 0 then noProviderCallWhileLockedAux depth rest else false
    | .mutate _ => noProviderCallWhileLockedAux depth rest

/-- A trace performs no provider I/O while holding the Bank lock. -/
def noProviderCallWhileLocked (tr : List BrokerEvent) : Prop :=
  noProviderCallWhileLockedAux 0 tr = true

/-- An operation whose purchase quantity (if it is a purchase) is strictly
positive. -/
def purchaseQtyPos (op : InvOp) : Prop :=
  match op with
  | .purchaseOp _ _ q _ => 0 < q
  | _ => True

/-- Well-formedness of an investment account's holdings map: every stored
holding has strictly positive quantity, and keys are unique (as they are in
a `HashMap`). -/
def accountWF (a : InvestmentAccount) : Prop :=
  (∀ p ∈ a.assets, 0 < p.2.quantity) ∧ (a.assets.map Prod.fst).Nodup

/-! ### Lemmas about the association-list holdings map -/

theorem lookupA_updateA_self (m : List (String × Holding)) (k : String)
    (f : Holding → Holding) :
    lookupA (updateA m k f) k = (lookupA m k).map f := by
  induction m with
  | nil => simp [lookupA, updateA]
  | cons p rest ih =>
    obtain ⟨k1, v⟩ := p
    by_cases h : k1 = k
    · subst h
      simp [lookupA, updateA]
    · simpa [lookupA, updateA, h] using ih

theorem lookupA_updateA_ne (m : List (String × Holding)) (k k' : String)
    (f : Holding → Holding) (h : k' ≠ k) :
    lookupA (updateA m k f) k' = lookupA m k' := by
  induction m with
  | nil => simp [lookupA, updateA]
  | cons p rest ih =>
    obtain ⟨k1, v⟩ := p
    by_cases hp : k1 = k
    · subst hp
      have hne : ¬k1 = k' := fun hc => h (Eq.symm hc)
      simpa [lookupA, updateA, hne] using ih
    · by_cases hp' : k1 = k'
      · simp [lookupA, updateA, hp, hp', h]
      · simpa [lookupA, updateA, hp, hp'] using ih

theorem lookupA_eraseA_self (m : List (String × Holding)) (k : String) :
    lookupA (eraseA m k) k = none := by
  induction m with
  | nil => simp [lookupA, eraseA]
  | cons p rest ih =>
    obtain ⟨k1, v⟩ := p
    by_cases h : k1 = k
    · simpa [eraseA, h] using ih
    · simpa [eraseA, lookupA, h] using ih

theorem lookupA_eraseA_ne (m : List (String × Holding)) (k k' : String)
    (h : k' ≠ k) :
    lookupA (eraseA m k) k' = lookupA m k' := by
  induction m with
  | nil => simp [lookupA, eraseA]
  | cons p rest ih =>
    obtain ⟨k1, v⟩ := p
    by_cases hp : k1 = k
    · subst hp
      have hne : ¬k1 = k' := fun hc => h (Eq.symm hc)
      simpa [eraseA, lookupA, hne] using ih
    · by_cases hp' : k1 = k'
      · simp [eraseA, lookupA, hp, hp', h]
      · simpa [eraseA, lookupA, hp, hp'] using ih

theorem lookupA_append_single_self (m : List (String × Holding)) (k : String)
    (v : Holding) (h : lookupA m k = none) :
    lookupA (m ++ [(k, v)]) k = some v := by
  induction m with
  | nil => simp [lookupA]
  | cons p rest ih =>
    obtain ⟨k1, v1⟩ := p
    by_cases hp : k1 = k
    · simp [lookupA, hp] at h
    · simp only [lookupA, hp, if_false, List.cons_append] at h ⊢
      exact ih h

theorem lookupA_append_single_ne (m : List (String × Holding)) (k k' : String)
    (v : Holding) (h : k' ≠ k) :
    lookupA (m ++ [(k, v)]) k' = lookupA m k' := by
  induction m with
  | nil =>
    have hne : ¬k = k' := fun hc => h (Eq.symm hc)
    simp [lookupA, hne]
  | cons p rest ih =>
    obtain ⟨k1, v1⟩ := p
    by_cases hp : k1 = k'
    · simp [lookupA, hp]
    · simpa [lookupA, hp] using ih

/-! ### Branch equations for the account operations -/

theorem purchase_investment_eq_fail (a : InvestmentAccount) (s : String)
    (price q : ℚ) (t : Int) (hb : a.balance < price * q) :
    a.purchase_investment s price q t = (.error .InsufficientFunds, a) := by
  simp [InvestmentAccount.purchase_investment, hb]

theorem purchase_investment_eq_new (a : InvestmentAccount) (s : String)
    (price q : ℚ) (t : Int) (hb : ¬a.balance < price * q)
    (h0 : lookupA a.assets s = none) :
    a.purchase_investment s price q t =
      (.ok (), { a with
        balance := a.balance - price * q,
        assets := a.assets ++ [(s, Holding.new (price * q / q) q s)],
        transactions := a.transactions ++
          [Transaction.new (.Purchase (Asset.new s) q) (price * q) t none] }) := by
  simp [InvestmentAccount.purchase_investment, hb, h0]

theorem purchase_investment_eq_existing (a : InvestmentAccount) (s : String)
    (price q : ℚ) (t : Int) (h : Holding) (hb : ¬a.balance < price * q)
    (hh : lookupA a.assets s = some h) :
    a.purchase_investment s price q t =
      (.ok (), { a with
        balance := a.balance - price * q,
        assets := updateA a.assets s (fun h0 =>
          { h0 with
            average_cost_per_unit :=
              (h0.average_cost_per_unit * h0.quantity + price * q) / (h0.quantity + q),
            quantity := h0.quantity + q }),
        transactions := a.transactions ++
          [Transaction.new (.Purchase (Asset.new s) q) (price * q) t none] }) := by
  simp [InvestmentAccount.purchase_investment, hb, hh]

theorem sell_investment_eq_missing (a : InvestmentAccount) (s : String)
    (price q : ℚ) (t : Int) (h0 : lookupA a.assets s = none) :
    a.sell_investment s price q t = (.error .InsufficientQuantity, a) := by
  simp [InvestmentAccount.sell_investment, h0]

theorem sell_investment_eq_insufficient (a : InvestmentAccount) (s : String)
    (price q : ℚ) (t : Int) (h : Holding) (hh : lookupA a.assets s = some h)
    (hlt : h.quantity < q) :
    a.sell_investment s price q t = (.error .InsufficientQuantity, a) := by
  simp [InvestmentAccount.sell_investment, hh, hlt]

theorem sell_investment_eq_erase (a : InvestmentAccount) (s : String)
    (price q : ℚ) (t : Int) (h : Holding) (hh : lookupA a.assets s = some h)
    (hlt : ¬h.quantity < q) (hz : h.quantity - q = 0) :
    a.sell_investment s price q t =
      (.ok (), { a with
        balance := a.balance + price * q,
        assets := eraseA a.assets s,
        transactions := a.transactions ++
          [Transaction.new (.Sale (Asset.new s) q) (price * q) t none] }) := by
  simp [InvestmentAccount.sell_investment, hh, hlt, hz]

theorem sell_investment_eq_update (a : InvestmentAccount) (s : String)
    (price q : ℚ) (t : Int) (h : Holding) (hh : lookupA a.assets s = some h)
    (hlt : ¬h.quantity < q) (hz : ¬h.quantity - q = 0) :
    a.sell_investment s price q t =
      (.ok (), { a with
        balance := a.balance + price * q,
        assets := updateA a.assets s (fun h0 => { h0 with quantity := h0.quantity - q }),
        transactions := a.transactions ++
          [Transaction.new (.Sale (Asset.new s) q) (price * q) t none] }) := by
  simp [InvestmentAccount.sell_investment, hh, hlt, hz]

/-! ### Cash-ledger lemmas (claim C1) -/

theorem cashSum_append (xs ys : List Transaction) :
    cashSum (xs ++ ys) = cashSum xs + cashSum ys := by
  simp [cashSum]

/-- Each investment-account operation changes the balance by exactly the
signed cash effect of the transaction it appends (and a failing operation
changes nothing). -/
theorem applyInvOp_cash_invariant (a : InvestmentAccount) (op : InvOp) :
    (applyInvOp a op).balance - cashSum (applyInvOp a op).transactions =
      a.balance - cashSum a.transactions := by
  cases op with
  | depositOp amt d =>
    simp [applyInvOp, InvestmentAccount.deposit, cashSum_append, cashSum,
      cashEffect, Transaction.new]
    try ring
  | withdrawOp amt d =>
    by_cases h : a.balance < amt
    · simp [applyInvOp, InvestmentAccount.withdraw, h]
    · simp [applyInvOp, InvestmentAccount.withdraw, h, cashSum_append,
        cashSum, cashEffect, Transaction.new]
      try ring
  | purchaseOp s p q d =>
    by_cases h : a.balance < p * q
    · simp [applyInvOp, InvestmentAccount.purchase_investment, h]
    · cases hl : lookupA a.assets s with
      | some holding =>
        simp [applyInvOp, InvestmentAccount.purchase_investment, h, hl,
          cashSum_append, cashSum, cashEffect, Transaction.new]
        try ring
      | none =>
        simp [applyInvOp, InvestmentAccount.purchase_investment, h, hl,
          cashSum_append, cashSum, cashEffect, Transaction.new]
        try ring
  | sellOp s p q d =>
    cases hl : lookupA a.assets s with
    | none => simp [applyInvOp, InvestmentAccount.sell_investment, hl]
    | some holding =>
      by_cases h : holding.quantity < q
      · simp [applyInvOp, InvestmentAccount.sell_investment, hl, h]
      · by_cases hz : holding.quantity - q = 0 <;>
          · simp [applyInvOp, InvestmentAccount.sell_investment, hl, h, hz,
              cashSum_append, cashSum, cashEffect, Transaction.new]
            try ring

theorem applyChkOp_cash_invariant (a : CheckingAccount) (op : ChkOp) :
    (applyChkOp a op).balance - cashSum (applyChkOp a op).transactions =
      a.balance - cashSum a.transactions := by
  cases op with
  | depositOp amt d =>
    simp [applyChkOp, CheckingAccount.deposit, cashSum_append, cashSum,
      cashEffect, Transaction.new]
    try ring
  | withdrawOp amt d =>
    by_cases h : a.balance < amt
    · simp [applyChkOp, CheckingAccount.withdraw, h]
    · simp [applyChkOp, CheckingAccount.withdraw, h, cashSum_append,
        cashSum, cashEffect, Transaction.new]
      try ring

theorem foldl_applyInvOp_cash (ops : List InvOp) :
    ∀ a : InvestmentAccount,
      (ops.foldl applyInvOp a).balance - cashSum (ops.foldl applyInvOp a).transactions =
        a.balance - cashSum a.transactions := by
  induction ops with
  | nil => intro a; rfl
  | cons op rest ih =>
    intro a
    simpa [applyInvOp_cash_invariant a op] using ih (applyInvOp a op)

theorem foldl_applyChkOp_cash (ops : List ChkOp) :
    ∀ a : CheckingAccount,
      (ops.foldl applyChkOp a).balance - cashSum (ops.foldl applyChkOp a).transactions =
        a.balance - cashSum a.transactions := by
  induction ops with
  | nil => intro a; rfl
  | cons op rest ih =>
    intro a
    simpa [applyChkOp_cash_invariant a op] using ih (applyChkOp a op)

/-- C1: for every account (Checking or Investment) that starts with balance
0 and an empty transaction log, after any finite sequence of deposit,
withdraw, purchase_investment and sell_investment operations (a failing
operation leaves the state unchanged, so only successes count), the balance
equals the sum over the transaction log of each transaction's signed cash
effect: `+amount` for Deposit, Sale and Dividend, `-amount` for Withdraw
and Purchase. -/
theorem ledger_is_faithful_cash_ledger :
    (∀ (ops : List ChkOp) (i : Nat) (nick : Option String) (c : Int),
      (ops.foldl applyChkOp (CheckingAccount.new i 0 nick c)).balance =
        cashSum (ops.foldl applyChkOp (CheckingAccount.new i 0 nick c)).transactions) ∧
    (∀ (ops : List InvOp) (i : Nat) (nick : Option String) (c : Int),
      (ops.foldl applyInvOp (InvestmentAccount.new i 0 nick c)).balance =
        cashSum (ops.foldl applyInvOp (InvestmentAccount.new i 0 nick c)).transactions) := by
  constructor
  · intro ops i nick c
    have h := foldl_applyChkOp_cash ops (CheckingAccount.new i 0 nick c)
    have hz : (CheckingAccount.new i 0 nick c).balance -
        cashSum (CheckingAccount.new i 0 nick c).transactions = 0 := by
      simp [CheckingAccount.new, cashSum]
    rw [hz] at h
    linarith
  · intro ops i nick c
    have h := foldl_applyInvOp_cash ops (InvestmentAccount.new i 0 nick c)
    have hz : (InvestmentAccount.new i 0 nick c).balance -
        cashSum (InvestmentAccount.new i 0 nick c).transactions = 0 := by
      simp [InvestmentAccount.new, cashSum]
    rw [hz] at h
    linarith

/-- C10: `deposit` performs no validation of its argument — for both account
variants and every amount (including zero and negative), it unconditionally
adds the amount to the balance, appends a Deposit transaction recording that
amount, and returns the new balance; in particular a negative deposit into a
fresh account drives the balance negative. -/
theorem deposit_is_unvalidated :
    (∀ (a : CheckingAccount) (amt : ℚ) (d : Int),
      (a.deposit amt d).1 = a.balance + amt ∧
      (a.deposit amt d).2.balance = a.balance + amt ∧
      (a.deposit amt d).2.transactions =
        a.transactions ++ [Transaction.new .Deposit amt d none]) ∧
    (∀ (a : InvestmentAccount) (amt : ℚ) (d : Int),
      (a.deposit amt d).1 = a.balance + amt ∧
      (a.deposit amt d).2.balance = a.balance + amt ∧
      (a.deposit amt d).2.transactions =
        a.transactions ++ [Transaction.new .Deposit amt d none]) ∧
    ((CheckingAccount.new 1 0 none 0).deposit (-5) 0).2.balance < 0 := by
  refine ⟨fun a amt d => ⟨rfl, rfl, rfl⟩, fun a amt d => ⟨rfl, rfl, rfl⟩, ?_⟩
  norm_num [CheckingAccount.new, CheckingAccount.deposit]

/-- C6: starting with no holding of `s`, a first successful purchase of
`q1` units at price `p1` inserts a holding with
`average_cost_per_unit = total_cost / quantity` and quantity `q1`; a second
successful purchase of `q2` units at price `p2` leaves the holding with
quantity `q1 + q2` and average cost `(q1*p1 + q2*p2) / (q1 + q2)`. -/
theorem purchase_average_cost (a : InvestmentAccount) (s : String)
    (p1 q1 p2 q2 : ℚ) (t1 t2 : Int)
    (h0 : lookupA a.assets s = none) (hq1 : 0 < q1) (hq2 : 0 < q2)
    (h1 : (a.purchase_investment s p1 q1 t1).1 = .ok ()) :
    lookupA (a.purchase_investment s p1 q1 t1).2.assets s =
      some (Holding.new (p1 * q1 / q1) q1 s) ∧
    (((a.purchase_investment s p1 q1 t1).2.purchase_investment s p2 q2 t2).1 = .ok () →
      lookupA ((a.purchase_investment s p1 q1 t1).2.purchase_investment s p2 q2 t2).2.assets s =
        some (Holding.new ((q1 * p1 + q2 * p2) / (q1 + q2)) (q1 + q2) s)) := by
  by_cases hb1 : a.balance < p1 * q1
  · rw [purchase_investment_eq_fail a s p1 q1 t1 hb1] at h1
    exact absurd h1 (by simp)
  have ha1 : (a.purchase_investment s p1 q1 t1).2 = { a with
      balance := a.balance - p1 * q1,
      assets := a.assets ++ [(s, Holding.new (p1 * q1 / q1) q1 s)],
      transactions := a.transactions ++
        [Transaction.new (.Purchase (Asset.new s) q1) (p1 * q1) t1 none] } := by
    rw [purchase_investment_eq_new a s p1 q1 t1 hb1 h0]
  have hl1 : lookupA (a.purchase_investment s p1 q1 t1).2.assets s =
      some (Holding.new (p1 * q1 / q1) q1 s) := by
    rw [ha1]
    exact lookupA_append_single_self _ _ _ h0
  refine ⟨hl1, fun h2 => ?_⟩
  by_cases hb2 : (a.purchase_investment s p1 q1 t1).2.balance < p2 * q2
  · rw [purchase_investment_eq_fail _ s p2 q2 t2 hb2] at h2
    exact absurd h2 (by simp)
  rw [purchase_investment_eq_existing _ s p2 q2 t2 (Holding.new (p1 * q1 / q1) q1 s) hb2 hl1]
  show lookupA (updateA (a.purchase_investment s p1 q1 t1).2.assets s _) s = _
  rw [lookupA_updateA_self, hl1]
  have hnum : p1 * q1 / q1 * q1 + p2 * q2 = q1 * p1 + q2 * p2 := by
    rw [div_mul_cancel₀ _ (ne_of_gt hq1)]
    ring
  simp [Holding.new, Asset.new, hnum]

/-- Witness for C6 at a concrete account: buy 2 units of "A" at 10, then 1
unit at 40, ending with quantity 3 at average cost 20. -/
theorem purchase_average_cost_witness :
    lookupA (InvestmentAccount.new 1 100 none 0).assets "A" = none ∧
    (0 : ℚ) < 2 ∧ (0 : ℚ) < 1 ∧
    ((InvestmentAccount.new 1 100 none 0).purchase_investment "A" 10 2 0).1 = .ok () ∧
    (lookupA ((InvestmentAccount.new 1 100 none 0).purchase_investment "A" 10 2 0).2.assets "A" =
      some (Holding.new (10 * 2 / 2) 2 "A") ∧
    ((((InvestmentAccount.new 1 100 none 0).purchase_investment "A" 10 2 0).2.purchase_investment
        "A" 40 1 1).1 = .ok () →
      lookupA (((InvestmentAccount.new 1 100 none 0).purchase_investment "A" 10 2 0).2.purchase_investment
          "A" 40 1 1).2.assets "A" =
        some (Holding.new ((2 * 10 + 1 * 40) / (2 + 1)) (2 + 1) "A"))) :=
  ⟨rfl, by norm_num, by norm_num,
    by norm_num [InvestmentAccount.new, InvestmentAccount.purchase_investment, lookupA],
    purchase_average_cost (InvestmentAccount.new 1 100 none 0) "A" 10 2 40 1 0 1
      rfl (by norm_num) (by norm_num)
      (by norm_num [InvestmentAccount.new, InvestmentAccount.purchase_investment, lookupA])⟩

/-- C7: for an account holding `s` with quantity at least `q`, a sell of
`q` units succeeds and changes only: the balance (increased by `price*q`),
the holding's quantity (decreased by `q`, the holding being removed exactly
when the remaining quantity is zero, and keeping its average cost
otherwise), and the transaction log (one Sale appended); all other
holdings and the account identity fields are unchanged. -/
theorem sell_investment_frame (a : InvestmentAccount) (s : String)
    (price q : ℚ) (t : Int) (h : Holding)
    (hh : lookupA a.assets s = some h) (hq : q ≤ h.quantity) :
    (a.sell_investment s price q t).1 = .ok () ∧
    (a.sell_investment s price q t).2.balance = a.balance + price * q ∧
    (a.sell_investment s price q t).2.transactions =
      a.transactions ++ [Transaction.new (.Sale (Asset.new s) q) (price * q) t none] ∧
    (h.quantity - q = 0 → lookupA (a.sell_investment s price q t).2.assets s = none) ∧
    (h.quantity - q ≠ 0 → lookupA (a.sell_investment s price q t).2.assets s =
      some { h with quantity := h.quantity - q }) ∧
    (∀ s', s' ≠ s → lookupA (a.sell_investment s price q t).2.assets s' = lookupA a.assets s') ∧
    (a.sell_investment s price q t).2.id = a.id ∧
    (a.sell_investment s price q t).2.nickname = a.nickname ∧
    (a.sell_investment s price q t).2.created_at = a.created_at := by
  have hlt : ¬h.quantity < q := not_lt.mpr hq
  by_cases hz : h.quantity - q = 0
  · rw [sell_investment_eq_erase a s price q t h hh hlt hz]
    exact ⟨rfl, rfl, rfl, fun _ => lookupA_eraseA_self _ _,
      fun hc => absurd hz hc, fun s' hs' => lookupA_eraseA_ne _ _ _ hs',
      rfl, rfl, rfl⟩
  · rw [sell_investment_eq_update a s price q t h hh hlt hz]
    refine ⟨rfl, rfl, rfl, fun hc => absurd hc hz, fun _ => ?_,
      fun s' hs' => lookupA_updateA_ne _ _ _ _ hs', rfl, rfl, rfl⟩
    rw [lookupA_updateA_self, hh]
    rfl

/-- Witness for C7: selling 1 of 3 held units of "A" at price 7. -/
theorem sell_investment_frame_witness :
    lookupA [("A", Holding.new 5 3 "A")] "A" = some (Holding.new 5 3 "A") ∧
    (1 : ℚ) ≤ (Holding.new 5 3 "A").quantity ∧
    ((InvestmentAccount.mk 1 0 none 0 [("A", Holding.new 5 3 "A")] []).sell_investment
        "A" 7 1 2).1 = .ok () ∧
    ((InvestmentAccount.mk 1 0 none 0 [("A", Holding.new 5 3 "A")] []).sell_investment
        "A" 7 1 2).2.balance = 0 + 7 * 1 ∧
    ((Holding.new 5 3 "A").quantity - 1 ≠ 0 →
      lookupA ((InvestmentAccount.mk 1 0 none 0 [("A", Holding.new 5 3 "A")] []).sell_investment
          "A" 7 1 2).2.assets "A" =
        some { Holding.new 5 3 "A" with quantity := (Holding.new 5 3 "A").quantity - 1 }) := by
  have hmain := sell_investment_frame (InvestmentAccount.mk 1 0 none 0 [("A", Holding.new 5 3 "A")] [])
    "A" 7 1 2 (Holding.new 5 3 "A") rfl (by norm_num [Holding.new])
  exact ⟨rfl, by norm_num [Holding.new], hmain.1, hmain.2.1, hmain.2.2.2.2.1⟩

/-! ### Holdings-map well-formedness (claim C8) -/

theorem mem_updateA (m : List (String × Holding)) (k : String)
    (f : Holding → Holding) (p : String × Holding) (hp : p ∈ updateA m k f) :
    ∃ q0 ∈ m, p = (q0.1, if q0.1 = k then f q0.2 else q0.2) := by
  induction m with
  | nil => simp [updateA] at hp
  | cons q rest ih =>
    obtain ⟨k1, v⟩ := q
    rcases List.mem_cons.mp hp with h | h
    · exact ⟨(k1, v), List.mem_cons_self _ _, h⟩
    · obtain ⟨q0, hq0, hpe⟩ := ih h
      exact ⟨q0, List.mem_cons_of_mem _ hq0, hpe⟩

theorem eraseA_sublist (m : List (String × Holding)) (k : String) :
    (eraseA m k).Sublist m := by
  induction m with
  | nil => simp [eraseA]
  | cons q rest ih =>
    obtain ⟨k1, v⟩ := q
    by_cases h : k1 = k
    · simpa [eraseA, h] using ih.cons (k1, v)
    · simpa [eraseA, h] using ih.cons₂ (k1, v)

theorem keys_updateA (m : List (String × Holding)) (k : String)
    (f : Holding → Holding) :
    (updateA m k f).map Prod.fst = m.map Prod.fst := by
  induction m with
  | nil => simp [updateA]
  | cons q rest ih =>
    obtain ⟨k1, v⟩ := q
    simp [updateA, ih]

theorem not_mem_keys_of_lookupA_none (m : List (String × Holding)) (k : String)
    (h : lookupA m k = none) : k ∉ m.map Prod.fst := by
  induction m with
  | nil => simp
  | cons q rest ih =>
    obtain ⟨k1, v⟩ := q
    by_cases hk : k1 = k
    · simp [lookupA, hk] at h
    · simp only [lookupA, hk, if_false] at h
      simp only [List.map_cons, List.mem_cons]
      push_neg
      exact ⟨fun hc => hk (Eq.symm hc), ih h⟩

theorem value_eq_of_lookupA_nodup (m : List (String × Holding)) (k : String)
    (h : Holding) (hnd : (m.map Prod.fst).Nodup) (hl : lookupA m k = some h)
    (p : String × Holding) (hp : p ∈ m) (hpk : p.1 = k) : p.2 = h := by
  induction m with
  | nil => simp [lookupA] at hl
  | cons q rest ih =>
    obtain ⟨k1, v⟩ := q
    rcases List.mem_cons.mp hp with hph | hph
    · have hk1 : k1 = k := by rw [← hpk, hph]
      rw [hph]
      simp only [lookupA, hk1, if_true] at hl
      exact Option.some.inj hl
    · by_cases hk1 : k1 = k
      · exfalso
        have : p.1 ∈ rest.map Prod.fst := List.mem_map_of_mem _ hph
        rw [hpk, ← hk1] at this
        exact (List.nodup_cons.mp (by simpa using hnd)).1 this
      · simp only [lookupA, hk1, if_false] at hl
        exact ih (List.nodup_cons.mp (by simpa using hnd)).2 hl hph

/-- Each operation whose purchase quantity is positive preserves
well-formedness of the holdings map. -/
theorem applyInvOp_accountWF (a : InvestmentAccount) (op : InvOp)
    (hop : purchaseQtyPos op) (ha : accountWF a) : accountWF (applyInvOp a op) := by
  obtain ⟨hpos, hnd⟩ := ha
  cases op with
  | depositOp amt d => exact ⟨hpos, hnd⟩
  | withdrawOp amt d =>
    have : (applyInvOp a (.withdrawOp amt d)).assets = a.assets := by
      by_cases h : a.balance < amt <;> simp [applyInvOp, InvestmentAccount.withdraw, h]
    rw [accountWF, this]
    exact ⟨hpos, hnd⟩
  | purchaseOp s p q d =>
    have hq : 0 < q := hop
    by_cases hb : a.balance < p * q
    · have heq : applyInvOp a (.purchaseOp s p q d) = a := by
        simp [applyInvOp, purchase_investment_eq_fail a s p q d hb]
      rw [heq]; exact ⟨hpos, hnd⟩
    cases hl : lookupA a.assets s with
    | none =>
      have heq : (applyInvOp a (.purchaseOp s p q d)).assets =
          a.assets ++ [(s, Holding.new (p * q / q) q s)] := by
        simp [applyInvOp, purchase_investment_eq_new a s p q d hb hl]
      rw [accountWF, heq]
      constructor
      · intro pr hpr
        rcases List.mem_append.mp hpr with h | h
        · exact hpos pr h
        · have : pr = (s, Holding.new (p * q / q) q s) := by simpa using h
          rw [this]
          exact hq
      · rw [List.map_append]
        rw [List.nodup_append]
        refine ⟨hnd, List.nodup_singleton _, ?_⟩
        intro x hx hx'
        have hxs : x = s := by simpa using hx'
        exact not_mem_keys_of_lookupA_none a.assets s hl (hxs ▸ hx)
    | some h0 =>
      have heq : (applyInvOp a (.purchaseOp s p q d)).assets =
          updateA a.assets s (fun h1 =>
            { h1 with
              average_cost_per_unit :=
                (h1.average_cost_per_unit * h1.quantity + p * q) / (h1.quantity + q),
              quantity := h1.quantity + q }) := by
        simp [applyInvOp, purchase_investment_eq_existing a s p q d h0 hb hl]
      rw [accountWF, heq]
      constructor
      · intro pr hpr
        obtain ⟨q0, hq0, hpe⟩ := mem_updateA _ _ _ _ hpr
        rw [hpe]
        by_cases hks : q0.1 = s
        · simp only [hks, if_true]
          have := hpos q0 hq0
          exact add_pos this hq
        · simp only [hks, if_false]
          exact hpos q0 hq0
      · rw [keys_updateA]
        exact hnd
  | sellOp s p q d =>
    cases hl : lookupA a.assets s with
    | none =>
      have heq : applyInvOp a (.sellOp s p q d) = a := by
        simp [applyInvOp, sell_investment_eq_missing a s p q d hl]
      rw [heq]; exact ⟨hpos, hnd⟩
    | some h0 =>
      by_cases hlt : h0.quantity < q
      · have heq : applyInvOp a (.sellOp s p q d) = a := by
          simp [applyInvOp, sell_investment_eq_insufficient a s p q d h0 hl hlt]
        rw [heq]; exact ⟨hpos, hnd⟩
      by_cases hz : h0.quantity - q = 0
      · have heq : (applyInvOp a (.sellOp s p q d)).assets = eraseA a.assets s := by
          simp [applyInvOp, sell_investment_eq_erase a s p q d h0 hl hlt hz]
        rw [accountWF, heq]
        constructor
        · intro pr hpr
          exact hpos pr ((eraseA_sublist a.assets s).subset hpr)
        · exact hnd.sublist ((eraseA_sublist a.assets s).map Prod.fst)
      · have heq : (applyInvOp a (.sellOp s p q d)).assets =
            updateA a.assets s (fun h1 => { h1 with quantity := h1.quantity - q }) := by
          simp [applyInvOp, sell_investment_eq_update a s p q d h0 hl hlt hz]
        rw [accountWF, heq]
        constructor
        · intro pr hpr
          obtain ⟨q0, hq0, hpe⟩ := mem_updateA _ _ _ _ hpr
          rw [hpe]
          by_cases hks : q0.1 = s
          · simp only [hks, if_true]
            have hq0v : q0.2 = h0 :=
              value_eq_of_lookupA_nodup a.assets s h0 hnd hl q0 hq0 hks
            rw [hq0v]
            rcases lt_or_eq_of_le (sub_nonneg.mpr (not_lt.mp hlt)) with hgt | heq0
            · exact hgt
            · exact absurd heq0.symm hz
          · simp only [hks, if_false]
            exact hpos q0 hq0
        · rw [keys_updateA]
          exact hnd

theorem foldl_applyInvOp_accountWF (ops : List InvOp) :
    ∀ a : InvestmentAccount, (∀ op ∈ ops, purchaseQtyPos op) → accountWF a →
      accountWF (ops.foldl applyInvOp a) := by
  induction ops with
  | nil => intro a _ ha; exact ha
  | cons op rest ih =>
    intro a hops ha
    exact ih (applyInvOp a op) (fun o ho => hops o (List.mem_cons_of_mem _ ho))
      (applyInvOp_accountWF a op (hops op (List.mem_cons_self _ _)) ha)

/-- C8 (amended): starting from a fresh investment account, after any
sequence of operations in which every purchase has strictly positive
quantity, no holding with quantity 0 (indeed none with quantity ≤ 0) is
present in the holdings map: a holding whose quantity reaches zero on a
sell is removed rather than retained. -/
theorem no_zero_quantity_holding (ops : List InvOp) (i : Nat)
    (nick : Option String) (c : Int)
    (hops : ∀ op ∈ ops, purchaseQtyPos op) :
    ∀ p ∈ (ops.foldl applyInvOp (InvestmentAccount.new i 0 nick c)).assets,
      p.2.quantity ≠ 0 := by
  have hwf : accountWF (ops.foldl applyInvOp (InvestmentAccount.new i 0 nick c)) :=
    foldl_applyInvOp_accountWF ops (InvestmentAccount.new i 0 nick c) hops
      ⟨by simp [InvestmentAccount.new], by simp [InvestmentAccount.new]⟩
  intro p hp
  exact ne_of_gt (hwf.1 p hp)

/-- Witness for C8 (amended): deposit 100, buy 2 of "A" at 5, sell both at
6 (the "A" holding is removed), buy 1 of "B" at 1: no zero-quantity
holding remains. -/
theorem no_zero_quantity_holding_witness :
    (∀ op ∈ [InvOp.depositOp 100 0, InvOp.purchaseOp "A" 5 2 0,
        InvOp.sellOp "A" 6 2 1, InvOp.purchaseOp "B" 1 1 1], purchaseQtyPos op) ∧
    ∀ p ∈ ([InvOp.depositOp 100 0, InvOp.purchaseOp "A" 5 2 0,
        InvOp.sellOp "A" 6 2 1, InvOp.purchaseOp "B" 1 1 1].foldl applyInvOp
          (InvestmentAccount.new 1 0 none 0)).assets,
      p.2.quantity ≠ 0 :=
  ⟨by rintro op hop; fin_cases hop <;> norm_num [purchaseQtyPos],
   no_zero_quantity_holding _ 1 none 0
     (by rintro op hop; fin_cases hop <;> norm_num [purchaseQtyPos])⟩

/-- C8 counterexample: a successful purchase with quantity 0 (which the
code does not reject) inserts a holding with quantity 0 into the holdings
map, so the invariant claimed for every purchase/sell sequence fails. -/
theorem zero_quantity_holding_after_purchase :
    ((InvestmentAccount.new 1 0 none 0).purchase_investment "A" 5 0 0).1 = .ok () ∧
    lookupA (applyInvOp (InvestmentAccount.new 1 0 none 0)
        (.purchaseOp "A" 5 0 0)).assets "A" = some (Holding.new 0 0 "A") ∧
    (Holding.new 0 0 "A").quantity = 0 := by
  refine ⟨?_, ?_, rfl⟩ <;>
    norm_num [InvestmentAccount.new, InvestmentAccount.purchase_investment,
      applyInvOp, lookupA, Holding.new, Asset.new]

/-! ### Insufficiency guards (claim C9) -/

/-- C9 (amended): `withdraw` fails with `InsufficientFunds` exactly when
`balance < amount` and then leaves the account unchanged, and a successful
withdraw returns the debited balance, which is never negative;
`sell_investment` fails with `InsufficientQuantity` exactly when the symbol
is unheld or held in quantity strictly below the requested one, and then
leaves the account unchanged; a successful sell leaves the sold holding
with the (nonnegative) decremented quantity or removes it, and — provided
the sale proceeds `price*quantity` are nonnegative (a negative price or
quantity can drive the balance below zero) — never drives a nonnegative
balance negative. -/
theorem insufficiency_guards :
    (∀ (a : InvestmentAccount) (amt : ℚ) (t : Int),
      ((a.withdraw amt t).1 = .error .InsufficientFunds ↔ a.balance < amt) ∧
      (a.balance < amt → (a.withdraw amt t).2 = a)) ∧
    (∀ (a : InvestmentAccount) (amt : ℚ) (t : Int) (b : ℚ),
      (a.withdraw amt t).1 = .ok b →
        b = a.balance - amt ∧ (a.withdraw amt t).2.balance = b ∧ 0 ≤ b) ∧
    (∀ (a : InvestmentAccount) (s : String) (p q : ℚ) (t : Int),
      ((a.sell_investment s p q t).1 = .error .InsufficientQuantity ↔
        lookupA a.assets s = none ∨
          ∃ h, lookupA a.assets s = some h ∧ h.quantity < q) ∧
      ((a.sell_investment s p q t).1 = .error .InsufficientQuantity →
        (a.sell_investment s p q t).2 = a)) ∧
    (∀ (a : InvestmentAccount) (s : String) (p q : ℚ) (t : Int) (h : Holding),
      lookupA a.assets s = some h → ¬h.quantity < q →
        (a.sell_investment s p q t).1 = .ok () ∧
        ((lookupA (a.sell_investment s p q t).2.assets s = none ∧
            h.quantity - q = 0) ∨
          (∃ h', lookupA (a.sell_investment s p q t).2.assets s = some h' ∧
            h'.quantity = h.quantity - q ∧ 0 ≤ h'.quantity)) ∧
        (0 ≤ p * q → 0 ≤ a.balance →
          0 ≤ (a.sell_investment s p q t).2.balance)) := by
  refine ⟨fun a amt t => ?_, fun a amt t b => ?_, fun a s p q t => ?_,
    fun a s p q t h hh hlt => ?_⟩
  · by_cases hb : a.balance < amt
    · simp [InvestmentAccount.withdraw, hb]
    · simp [InvestmentAccount.withdraw, hb]
  · intro hok
    by_cases hb : a.balance < amt
    · simp [InvestmentAccount.withdraw, hb] at hok
    · simp only [InvestmentAccount.withdraw, hb, if_false] at hok ⊢
      have hb' : b = a.balance - amt := by
        simpa using (Except.ok.inj hok).symm
      refine ⟨hb', by simp [hb'], ?_⟩
      rw [hb']
      linarith [not_lt.mp hb]
  · cases hl : lookupA a.assets s with
    | none =>
      rw [sell_investment_eq_missing a s p q t hl]
      exact ⟨⟨fun _ => Or.inl rfl, fun _ => rfl⟩, fun _ => rfl⟩
    | some h0 =>
      by_cases hlt : h0.quantity < q
      · rw [sell_investment_eq_insufficient a s p q t h0 hl hlt]
        exact ⟨⟨fun _ => Or.inr ⟨h0, rfl, hlt⟩, fun _ => rfl⟩, fun _ => rfl⟩
      · by_cases hz : h0.quantity - q = 0
        · rw [sell_investment_eq_erase a s p q t h0 hl hlt hz]
          refine ⟨⟨fun hc => absurd hc (by simp), ?_⟩, fun hc => absurd hc (by simp)⟩
          rintro (hc | ⟨h1, hc, hcl⟩)
          · exact absurd hc (by simp)
          · cases Option.some.inj hc
            exact absurd hcl hlt
        · rw [sell_investment_eq_update a s p q t h0 hl hlt hz]
          refine ⟨⟨fun hc => absurd hc (by simp), ?_⟩, fun hc => absurd hc (by simp)⟩
          rintro (hc | ⟨h1, hc, hcl⟩)
          · exact absurd hc (by simp)
          · cases Option.some.inj hc
            exact absurd hcl hlt
  · by_cases hz : h.quantity - q = 0
    · rw [sell_investment_eq_erase a s p q t h hh hlt hz]
      refine ⟨rfl, Or.inl ⟨lookupA_eraseA_self _ _, hz⟩, fun hpq hbal => ?_⟩
      show (0 : ℚ) ≤ a.balance + p * q
      linarith
    · rw [sell_investment_eq_update a s p q t h hh hlt hz]
      refine ⟨rfl, Or.inr ⟨{ h with quantity := h.quantity - q }, ?_, rfl, ?_⟩,
        fun hpq hbal => ?_⟩
      · show lookupA (updateA a.assets s _) s = _
        rw [lookupA_updateA_self, hh]
        rfl
      · show (0 : ℚ) ≤ h.quantity - q
        linarith [not_lt.mp hlt]
      · show (0 : ℚ) ≤ a.balance + p * q
        linarith

/-- Witness for C9 (amended), at an account with balance 2 holding 3 units
of "A": selling one unit at price 7 succeeds, leaves 2 units, and keeps the
balance nonnegative. -/
theorem insufficiency_guards_witness :
    lookupA [("A", Holding.new 5 3 "A")] "A" = some (Holding.new 5 3 "A") ∧
    ¬(Holding.new 5 3 "A").quantity < 1 ∧
    (((InvestmentAccount.mk 1 2 none 0 [("A", Holding.new 5 3 "A")] []).sell_investment
        "A" 7 1 9).1 = .ok () ∧
     ((lookupA ((InvestmentAccount.mk 1 2 none 0 [("A", Holding.new 5 3 "A")] []).sell_investment
          "A" 7 1 9).2.assets "A" = none ∧ (Holding.new 5 3 "A").quantity - 1 = 0) ∨
       (∃ h', lookupA ((InvestmentAccount.mk 1 2 none 0 [("A", Holding.new 5 3 "A")] []).sell_investment
          "A" 7 1 9).2.assets "A" = some h' ∧
         h'.quantity = (Holding.new 5 3 "A").quantity - 1 ∧ 0 ≤ h'.quantity)) ∧
     (0 ≤ (7 : ℚ) * 1 →
      0 ≤ (InvestmentAccount.mk 1 2 none 0 [("A", Holding.new 5 3 "A")] []).balance →
      0 ≤ ((InvestmentAccount.mk 1 2 none 0 [("A", Holding.new 5 3 "A")] []).sell_investment
          "A" 7 1 9).2.balance)) :=
  ⟨rfl, by norm_num [Holding.new],
   insufficiency_guards.2.2.2 (InvestmentAccount.mk 1 2 none 0 [("A", Holding.new 5 3 "A")] [])
     "A" 7 1 9 (Holding.new 5 3 "A") rfl (by norm_num [Holding.new])⟩

/-- C9 counterexample: the claim "no successful withdraw or sell ever
drives the balance negative" fails — a sell at a negative price succeeds
(the guard only checks the held quantity) and drives a zero balance
negative. The account is reached by deposit 10 then purchase of 2 units of
"A" at price 5 (balance 0, holding 2 units). -/
theorem sell_negative_price_drives_balance_negative :
    0 ≤ ((((InvestmentAccount.new 1 0 none 0).deposit 10 0).2).purchase_investment
        "A" 5 2 0).2.balance ∧
    (((((InvestmentAccount.new 1 0 none 0).deposit 10 0).2).purchase_investment
        "A" 5 2 0).2.sell_investment "A" (-1) 1 1).1 = .ok () ∧
    (((((InvestmentAccount.new 1 0 none 0).deposit 10 0).2).purchase_investment
        "A" 5 2 0).2.sell_investment "A" (-1) 1 1).2.balance < 0 := by
  refine ⟨?_, ?_, ?_⟩ <;>
    norm_num [InvestmentAccount.new, InvestmentAccount.deposit,
      InvestmentAccount.purchase_investment, InvestmentAccount.sell_investment,
      lookupA, updateA, eraseA, Holding.new, Asset.new]

/-! ### Dividend-sweep idempotence (claim C2) -/

theorem foldl_add_transaction (ts : List Transaction) :
    ∀ a : InvestmentAccount,
      (ts.foldl add_transaction a).assets = a.assets ∧
      (ts.foldl add_transaction a).transactions = a.transactions ++ ts := by
  induction ts with
  | nil => intro a; exact ⟨rfl, by simp⟩
  | cons t rest ih =>
    intro a
    have h := ih (add_transaction a t)
    rw [List.foldl_cons]
    refine ⟨h.1, ?_⟩
    rw [h.2]
    simp [add_transaction]

/-- Every transaction the sweep schedules for a holding is a synthesized
dividend payout for some payment date `p` such that the log contains no
matching Dividend transaction for that holding on `p`. -/
theorem mem_todoForHolding (valid : List DividendEntry) (txs : List Transaction)
    (symbol : String) (h : Holding) (t : Transaction)
    (ht : t ∈ todoForHolding valid txs symbol h) :
    ∃ amt p, t = mkDividendTx h symbol amt p ∧
      (txs.filter (dividendDedup h p)).length = 0 := by
  induction valid with
  | nil => simp [todoForHolding] at ht
  | cons d rest ih =>
    obtain ⟨pd, amtd⟩ := d
    cases pd with
    | none =>
      exact ih (by simpa [todoForHolding] using ht)
    | some p =>
      by_cases hf : (txs.filter (dividendDedup h p)).length = 0
      · rcases List.mem_cons.mp (by simpa [todoForHolding, hf] using ht) with h1 | h1
        · exact ⟨amtd, p, h1, hf⟩
        · exact ih h1
      · exact ih (by simpa [todoForHolding, hf] using ht)

theorem mem_accountTodoAux (ddata : String → List DividendEntry)
    (l d : Int) (txs : List Transaction) (assets : List (String × Holding))
    (t : Transaction) (ht : t ∈ accountTodoAux ddata l d txs assets) :
    ∃ sh ∈ assets,
      t ∈ todoForHolding (parse_valid_dividend_data (ddata sh.1) l d) txs sh.1 sh.2 := by
  induction assets with
  | nil => simp [accountTodoAux] at ht
  | cons sh rest ih =>
    rcases List.mem_append.mp (by simpa [accountTodoAux] using ht) with h1 | h1
    · exact ⟨sh, List.mem_cons_self _ _, h1⟩
    · obtain ⟨sh', hm, hin⟩ := ih h1
      exact ⟨sh', List.mem_cons_of_mem _ hm, hin⟩

/-- C2: running the dividend sweep twice on an account, with no other
operations in between, never pays the same (asset, quantity, payment-date)
event twice: any payout `t` appended by the first run (with any target
range) differs from every payout `t'` of the second run (with any same or
overlapping target range) in its Dividend type (asset and
quantity-at-payment) or its payment date — the second run's de-duplication
check finds the first run's transaction in the log and skips the event. -/
theorem dividend_sweep_idempotent (ddata : String → List DividendEntry)
    (l1 d1 l2 d2 : Int) (a : InvestmentAccount) (t t' : Transaction)
    (ht : t ∈ accountTodo ddata l1 d1 a)
    (ht' : t' ∈ accountTodo ddata l2 d2 (check_dividend_payments_account ddata l1 d1 a)) :
    ¬(t'.transaction_type = t.transaction_type ∧ t'.date = t.date) := by
  rintro ⟨hty, hdt⟩
  have hstate := foldl_add_transaction (accountTodo ddata l1 d1 a) a
  obtain ⟨sh, hsh, ht'2⟩ := mem_accountTodoAux ddata l2 d2
    (check_dividend_payments_account ddata l1 d1 a).transactions
    (check_dividend_payments_account ddata l1 d1 a).assets t' ht'
  obtain ⟨amt, p, hte, hf⟩ := mem_todoForHolding _ _ _ _ _ ht'2
  have htype' : t'.transaction_type = .Dividend sh.2.asset sh.2.quantity := by
    rw [hte]; rfl
  have hdate' : t'.date = p := by rw [hte]; rfl
  have htmem : t ∈ (check_dividend_payments_account ddata l1 d1 a).transactions := by
    show t ∈ ((accountTodo ddata l1 d1 a).foldl add_transaction a).transactions
    rw [hstate.2]
    exact List.mem_append_right _ ht
  have h1 : t.transaction_type = .Dividend sh.2.asset sh.2.quantity := by
    rw [← hty]; exact htype'
  have h2 : t.date = p := by
    rw [← hdt]; exact hdate'
  have hpred : dividendDedup sh.2 p t = true := by
    simp [dividendDedup, h1, h2]
  have hmf : t ∈ (check_dividend_payments_account ddata l1 d1 a).transactions.filter
      (dividendDedup sh.2 p) :=
    List.mem_filter.mpr ⟨htmem, hpred⟩
  rw [List.length_eq_zero] at hf
  rw [hf] at hmf
  simp at hmf

/-- Witness for C2: one account holding 2 units of "A", provider dividend
history with payment dates 5 and 10; the first sweep over (0,7] pays date
5, the second sweep over (0,12] skips date 5 (already in the log) and pays
only date 10, which differs in payment date. -/
theorem dividend_sweep_idempotent_witness :
    (mkDividendTx (Holding.new 1 2 "A") "A" 1 5 ∈
      accountTodo (fun s => if s = "A" then [⟨some 5, 1⟩, ⟨some 10, 1⟩] else [])
        0 7 (InvestmentAccount.mk 1 0 none 0 [("A", Holding.new 1 2 "A")] [])) ∧
    (mkDividendTx (Holding.new 1 2 "A") "A" 1 10 ∈
      accountTodo (fun s => if s = "A" then [⟨some 5, 1⟩, ⟨some 10, 1⟩] else [])
        0 12 (check_dividend_payments_account
          (fun s => if s = "A" then [⟨some 5, 1⟩, ⟨some 10, 1⟩] else [])
          0 7 (InvestmentAccount.mk 1 0 none 0 [("A", Holding.new 1 2 "A")] []))) ∧
    ¬((mkDividendTx (Holding.new 1 2 "A") "A" 1 10).transaction_type =
        (mkDividendTx (Holding.new 1 2 "A") "A" 1 5).transaction_type ∧
      (mkDividendTx (Holding.new 1 2 "A") "A" 1 10).date =
        (mkDividendTx (Holding.new 1 2 "A") "A" 1 5).date) := by
  refine ⟨?_, ?_, ?_⟩
  · norm_num [accountTodo, accountTodoAux, todoForHolding,
      parse_valid_dividend_data, dividendDedup]
  · norm_num [accountTodo, accountTodoAux, todoForHolding,
      parse_valid_dividend_data, dividendDedup, check_dividend_payments_account,
      add_transaction, mkDividendTx, Transaction.new, Holding.new, Asset.new]
  · exact dividend_sweep_idempotent
      (fun s => if s = "A" then [⟨some 5, 1⟩, ⟨some 10, 1⟩] else []) 0 7 0 12
      (InvestmentAccount.mk 1 0 none 0 [("A", Holding.new 1 2 "A")] []) _ _
      (by norm_num [accountTodo, accountTodoAux, todoForHolding,
        parse_valid_dividend_data, dividendDedup])
      (by norm_num [accountTodo, accountTodoAux, todoForHolding,
        parse_valid_dividend_data, dividendDedup, check_dividend_payments_account,
        add_transaction, mkDividendTx, Transaction.new, Holding.new, Asset.new])

/-! ### Watermark persistence (claim C3) -/

/-- C3 evaluation: the watermark file is written only when it does not yet
exist. A sweep at target date 7 with a stored watermark of 5 succeeds but
leaves the persisted watermark at 5 instead of advancing it to 7; only the
very first sweep (no file) persists its target date. -/
theorem watermark_not_advanced_after_sweep :
    check_dividend_payments_watermark none 7 = .ok (some (some 7)) ∧
    check_dividend_payments_watermark (some (some 5)) 7 = .ok (some (some 5)) ∧
    (some (some 5) : WatermarkFile) ≠ some (some 7) := by
  refine ⟨rfl, rfl, by simp⟩

/-! ### Locking discipline (claim C4) -/

theorem accountDividendEvents_no_lock (syms : List String) :
    ∀ (seen : List String) (e : BrokerEvent),
      e ∈ (accountDividendEvents seen syms).1 →
        e = .providerCall "get_dividend_data" := by
  induction syms with
  | nil => intro seen e he; simp [accountDividendEvents] at he
  | cons s rest ih =>
    intro seen e he
    by_cases hs : s ∈ seen
    · exact ih seen e (by simpa [accountDividendEvents, hs] using he)
    · rcases List.mem_cons.mp (by simpa [accountDividendEvents, hs] using he) with h | h
      · exact h
      · exact ih (seen ++ [s]) e h

theorem dividendEventsAux_no_lock (accs : List (List String)) :
    ∀ (seen : List String) (e : BrokerEvent), e ∈ dividendEventsAux seen accs →
      e ≠ .lockAcquire ∧ e ≠ .lockRelease := by
  induction accs with
  | nil => intro seen e he; simp [dividendEventsAux] at he
  | cons syms rest ih =>
    intro seen e he
    rcases (by simpa [dividendEventsAux] using he :
        e ∈ (accountDividendEvents seen syms).1 ∨
          e = BrokerEvent.mutate "add_transaction" ∨
          e ∈ dividendEventsAux (accountDividendEvents seen syms).2 rest) with h | h | h
    · rw [accountDividendEvents_no_lock syms seen e h]
      exact ⟨by simp, by simp⟩
    · rw [h]
      exact ⟨by simp, by simp⟩
    · exact ih _ e h

theorem accountDividendEvents_provider_of_unseen (syms : List String) :
    ∀ (seen : List String) (s : String), s ∈ syms → s ∉ seen →
      BrokerEvent.providerCall "get_dividend_data" ∈ (accountDividendEvents seen syms).1 := by
  induction syms with
  | nil => intro seen s hs; simp at hs
  | cons s0 rest ih =>
    intro seen s hs hns
    by_cases h0 : s0 ∈ seen
    · have hsr : s ∈ rest := by
        rcases List.mem_cons.mp hs with h | h
        · exact absurd (h ▸ h0) hns
        · exact h
      simpa [accountDividendEvents, h0] using ih seen s hsr hns
    · simp [accountDividendEvents, h0]

theorem accountDividendEvents_seen_mem (syms : List String) :
    ∀ (seen : List String) (s : String), s ∈ (accountDividendEvents seen syms).2 →
      s ∈ seen ∨ BrokerEvent.providerCall "get_dividend_data" ∈ (accountDividendEvents seen syms).1 := by
  induction syms with
  | nil => intro seen s hs; exact Or.inl (by simpa [accountDividendEvents] using hs)
  | cons s0 rest ih =>
    intro seen s hs
    by_cases h0 : s0 ∈ seen
    · simp only [accountDividendEvents, h0, if_true] at hs ⊢
      exact ih seen s hs
    · simp only [accountDividendEvents, h0, if_false] at hs ⊢
      rcases ih (seen ++ [s0]) s hs with h | h
      · rcases List.mem_append.mp h with h1 | h1
        · exact Or.inl h1
        · exact Or.inr (List.mem_cons_self _ _)
      · exact Or.inr (List.mem_cons_of_mem _ h)

theorem provider_in_dividendEvents (accs : List (List String)) :
    ∀ (seen : List String), (∃ syms ∈ accs, ∃ s ∈ syms, s ∉ seen) →
      BrokerEvent.providerCall "get_dividend_data" ∈ dividendEventsAux seen accs := by
  induction accs with
  | nil => rintro seen ⟨syms, hm, _⟩; simp at hm
  | cons a rest ih =>
    rintro seen ⟨syms, hm, s, hs, hns⟩
    simp only [dividendEventsAux]
    rcases List.mem_cons.mp hm with h | h
    · refine List.mem_append.mpr (Or.inl (List.mem_append.mpr (Or.inl ?_)))
      exact accountDividendEvents_provider_of_unseen a seen s (h ▸ hs) hns
    · by_cases hseen : s ∈ (accountDividendEvents seen a).2
      · rcases accountDividendEvents_seen_mem a seen s hseen with h1 | h1
        · exact absurd h1 hns
        · exact List.mem_append.mpr (Or.inl (List.mem_append.mpr (Or.inl h1)))
      · exact List.mem_append.mpr (Or.inr (ih _ ⟨syms, h, s, hs, hseen⟩))

theorem aux_false_of_provider_locked (evs : List BrokerEvent) :
    ∀ (tail : List BrokerEvent) (d : Nat),
      (∀ e ∈ evs, e ≠ BrokerEvent.lockAcquire ∧ e ≠ BrokerEvent.lockRelease) →
      (∃ n, BrokerEvent.providerCall n ∈ evs) →
      noProviderCallWhileLockedAux (d + 1) (evs ++ tail) = false := by
  induction evs with
  | nil => rintro tail d _ ⟨n, hn⟩; simp at hn
  | cons e rest ih =>
    rintro tail d hnl ⟨n, hn⟩
    cases e with
    | lockAcquire => exact absurd rfl (hnl _ (List.mem_cons_self _ _)).1
    | lockRelease => exact absurd rfl (hnl _ (List.mem_cons_self _ _)).2
    | providerCall m =>
      simp [noProviderCallWhileLockedAux]
    | mutate m =>
      have hn' : BrokerEvent.providerCall n ∈ rest := by
        rcases List.mem_cons.mp hn with h | h
        · exact absurd h (by simp)
        · exact h
      simpa [noProviderCallWhileLockedAux] using
        ih tail d (fun e he => hnl e (List.mem_cons_of_mem _ he)) ⟨n, hn'⟩

/-- C4 counterexample: with a single investment account holding a single
symbol, `check_dividend_payments` performs a dividend-history provider call
while holding the Bank lock. -/
theorem provider_call_under_bank_lock :
    ¬noProviderCallWhileLocked (checkDividendTrace [["AAPL"]]) := by
  simp [noProviderCallWhileLocked, checkDividendTrace, dividendEventsAux,
    accountDividendEvents, noProviderCallWhileLockedAux]

/-- C4 (amended): `buy` and `sell` perform all provider I/O strictly before
acquiring the Bank lock, so their critical sections contain only the
account mutation; `check_dividend_payments`, however, acquires the Bank
lock first and performs its dividend-history provider calls inside the
critical section whenever some account holds at least one symbol. -/
theorem broker_lock_discipline :
    (∀ tickerCached, noProviderCallWhileLocked (buyTrace tickerCached)) ∧
    noProviderCallWhileLocked sellTrace ∧
    (∀ (accs : List (List String)) (syms : List String) (s : String),
      syms ∈ accs → s ∈ syms →
        ¬noProviderCallWhileLocked (checkDividendTrace accs)) := by
  refine ⟨fun c => ?_, ?_, fun accs syms s h1 h2 => ?_⟩
  · cases c <;> rfl
  · rfl
  · intro hcontra
    have hp := provider_in_dividendEvents accs [] ⟨syms, h1, s, h2, by simp⟩
    have hfalse : noProviderCallWhileLockedAux 0 (checkDividendTrace accs) = false := by
      show noProviderCallWhileLockedAux 0
        (.lockAcquire :: (dividendEventsAux [] accs ++ [.lockRelease])) = false
      have : noProviderCallWhileLockedAux 1
          (dividendEventsAux [] accs ++ [.lockRelease]) = false :=
        aux_false_of_provider_locked _ [.lockRelease] 0
          (dividendEventsAux_no_lock accs []) ⟨"get_dividend_data", hp⟩
      simpa [noProviderCallWhileLockedAux] using this
    rw [noProviderCallWhileLocked, hfalse] at hcontra
    exact Bool.false_ne_true hcontra

/-- Witness for C4 (amended) at one account holding one symbol. -/
theorem broker_lock_discipline_witness :
    ["AAPL"] ∈ [["AAPL"]] ∧ "AAPL" ∈ ["AAPL"] ∧
    ¬noProviderCallWhileLocked (checkDividendTrace [["AAPL"]]) :=
  ⟨List.mem_cons_self _ _, List.mem_cons_self _ _,
    broker_lock_discipline.2.2 [["AAPL"]] ["AAPL"] "AAPL"
      (List.mem_cons_self _ _) (List.mem_cons_self _ _)⟩

/-! ### Cache corruption handling (claim C5) -/

/-- C5 evaluation: a cache file that exists, is fresh, and is readable but
does not parse makes `get_time_series_intraday` panic (the serde `unwrap`);
a fresh unreadable file surfaces a typed I/O error; only a stale or absent
file is treated as a cache miss with the provider's payload returned. -/
theorem cache_corruption_panics :
    get_time_series_intraday (CacheFile.mk true true true "garbage")
      (fun _ => none) (Except.ok (42 : Nat)) = .panicked ∧
    get_time_series_intraday (CacheFile.mk true true false "garbage")
      (fun _ => none) (Except.ok (42 : Nat)) = .ioError ∧
    get_time_series_intraday (CacheFile.mk true false true "garbage")
      (fun _ => none) (Except.ok (42 : Nat)) = .ok 42 ∧
    get_time_series_intraday (CacheFile.mk false true true "garbage")
      (fun _ => none) (Except.ok (42 : Nat)) = .ok 42 := by
  exact ⟨rfl, rfl, rfl, rfl⟩

end TradingEngine
